import Mathlib

/-!
Verification of the `mage` character-grid presentation layer.

The Rust source (`src/present.rs`, `src/render.rs`, `src/lib.rs`) is embedded
shallowly: `u32` values become `Nat` with explicit wrapping modulo `2^32`
where the source's arithmetic can wrap (release-mode semantics), `i32` values
become `Int`, vectors become `List Nat`, and fallible slice writes are
modelled by `List.set`-based updates (which leave out-of-range positions
unchanged; out-of-range writes are unreachable from the claims proved here
except where explicitly noted).
-/

namespace Mage

/-- Modulus of Rust `u32` arithmetic. -/
def U32 : Nat := 4294967296

/-- Rust `x as u32` for `x : i32` (two's-complement cast). -/
def u32cast (x : Int) : Nat := (x % (U32 : Int)).toNat

/-- Rust `x as i32` for `x : u32` (two's-complement reinterpretation). -/
def i32cast (n : Nat) : Int :=
  if n % U32 < 2147483648 then (n % U32 : Int) else (n % U32 : Int) - (U32 : Int)

/-- Wrapping `u32` subtraction `a - b` (release-mode semantics), for
representable `a b < 2^32`. -/
def usub (a b : Nat) : Nat := if b ≤ a then a - b else a + U32 - b

/-- Rust struct `Point` from `src/present.rs`: a signed `(x, y)` coordinate. -/
structure Point where
  x : Int
  y : Int
deriving DecidableEq

/-- Rust struct `Char` from `src/present.rs`: a glyph byte with ink and
paper colours (all stored here as `Nat` values of the source's `u8`/`u32`). -/
structure Char where
  ch : Nat
  ink : Nat
  paper : Nat
deriving DecidableEq

/-- Rust struct `Image` from `src/present.rs`: grid dimensions plus the three
planes `fore_image`, `back_image`, `text_image` (vectors of `u32`). -/
structure Image where
  width : Nat
  height : Nat
  fore_image : List Nat
  back_image : List Nat
  text_image : List Nat
deriving DecidableEq

/-- Rust `Image::coords_to_index` (`src/present.rs:69`): bounds check then
`(y * self.width + x) as usize`, where the multiply-add is `u32` arithmetic
and hence wraps modulo `2^32`. -/
def coords_to_index (img : Image) (x y : Nat) : Option Nat :=
  if x < img.width ∧ y < img.height then some ((y * img.width + x) % U32)
  else none

/-- Rust `Image::clip` (`src/present.rs:77`): negative origin components are
folded into the extents with wrapping `u32` addition (`width += x as u32`),
the origin is clamped to zero, and the extents are clamped by the wrapping
subtractions `self.width - x` / `self.height - y`. -/
def clip (img : Image) (p : Point) (width height : Nat) : Nat × Nat × Nat × Nat :=
  let xw : Int × Nat := if p.x < 0 then ((0 : Int), (width + u32cast p.x) % U32) else (p.x, width)
  let yh : Int × Nat := if p.y < 0 then ((0 : Int), (height + u32cast p.y) % U32) else (p.y, height)
  let x := u32cast xw.1
  let y := u32cast yh.1
  let width := min xw.2 (usub img.width x)
  let height := min yh.2 (usub img.height y)
  (x, y, width, height)

/-- Sets the `n` positions `i, i+1, ..., i+n-1` of `l` to `v`; this is the
effect of the source's `slice[i..i+n].iter_mut().for_each(|x| *x = v)`
(positions beyond the list are left unchanged; in the source such a write
would panic, a case unreachable in the situations proved below). -/
def setRange (l : List Nat) (i n v : Nat) : List Nat :=
  match n with
  | 0 => l
  | Nat.succ m => (setRange l i m v).set (i + m) v

/-- Writes the values `vs` at consecutive positions starting at `i`; this is
the effect of the source's
`slice[i..i+w].iter_mut().enumerate().for_each(|(j, x)| *x = vs[j])`. -/
def setVals (l : List Nat) (i : Nat) (vs : List Nat) : List Nat :=
  match vs with
  | [] => l
  | v :: vr => setVals (l.set i v) (i + 1) vr

/-- Rust `Image::draw_char` (`src/present.rs:107`). -/
def draw_char (img : Image) (p : Point) (ch : Char) : Image :=
  if 0 ≤ p.x ∧ 0 ≤ p.y then
    match coords_to_index img (u32cast p.x) (u32cast p.y) with
    | some i =>
      { img with
        fore_image := img.fore_image.set i ch.ink
        back_image := img.back_image.set i ch.paper
        text_image := img.text_image.set i ch.ch }
    | none => img
  else img

/-- Rust `Image::draw_string` (`src/present.rs:117`): clips a `text.len() × 1`
rectangle at `p`, ignores the clipped height, and writes the clipped width's
worth of leading text bytes at the clipped origin.  When the clipped width
exceeds the text length the source panics on the byte index
`text.as_bytes()[j]`; the model writes the available bytes (this region is
exercised only by the counterexamples below, never by a positive theorem). -/
def draw_string (img : Image) (p : Point) (text : List Nat) (ink paper : Nat) : Image :=
  let c := clip img p (text.length % U32) 1
  match coords_to_index img c.1 c.2.1 with
  | some i =>
    { img with
      fore_image := setRange img.fore_image i c.2.2.1 ink
      back_image := setRange img.back_image i c.2.2.1 paper
      text_image := setVals img.text_image i (text.take c.2.2.1) }
  | none => img

/-- Row-filling loop of Rust `Image::draw_rect_filled` (`src/present.rs:159`):
`(0..height).for_each` writes one row of `width` cells then advances the
index by `self.width` (a `usize` addition, hence unwrapped). -/
def fillRows (img : Image) (ch : Char) (w i : Nat) : Nat → Image
  | 0 => img
  | Nat.succ h =>
    fillRows
      { img with
        fore_image := setRange img.fore_image i w ch.ink
        back_image := setRange img.back_image i w ch.paper
        text_image := setRange img.text_image i w ch.ch }
      ch w (i + img.width) h

/-- Rust `Image::draw_rect_filled` (`src/present.rs:153`). -/
def draw_rect_filled (img : Image) (p : Point) (width height : Nat) (ch : Char) : Image :=
  let c := clip img p width height
  match coords_to_index img c.1 c.2.1 with
  | some i => fillRows img ch c.2.2.1 i c.2.2.2
  | none => img

/-- Rust `Image::clear` (`src/present.rs:98`): a filled rectangle covering the
whole grid with the space glyph (byte 32). -/
def clear (img : Image) (ink paper : Nat) : Image :=
  draw_rect_filled img ⟨0, 0⟩ img.width img.height ⟨32, ink, paper⟩

/-- Rust `Image::draw_rect` (`src/present.rs:133`): outline as four filled
rectangles, degenerating to a single filled rectangle when either extent is
below 3.  The source's `height as i32` / `width as i32` casts are modelled
by `i32cast`. -/
def draw_rect (img : Image) (p : Point) (width height : Nat) (ch : Char) : Image :=
  if width < 3 ∨ height < 3 then
    draw_rect_filled img p width height ch
  else
    let i1 := draw_rect_filled img p width 1 ch
    let i2 := draw_rect_filled i1 ⟨p.x, p.y + i32cast height - 1⟩ width 1 ch
    let i3 := draw_rect_filled i2 ⟨p.x, p.y + 1⟩ 1 (height - 2) ch
    draw_rect_filled i3 ⟨p.x + i32cast width - 1, p.y + 1⟩ 1 (height - 2) ch

/-- Rust enum `wgpu::SwapChainError` as matched by the loop driver in
`src/lib.rs:344`. -/
inductive SwapChainErrorM where
  | Timeout
  | Outdated
  | Lost
  | OutOfMemory
deriving DecidableEq

/-- Rust `winit::event_loop::ControlFlow` as used by the loop driver:
`Poll` (keep looping) or `Exit` (terminate the loop). -/
inductive ControlFlowM where
  | Poll
  | Exit
deriving DecidableEq

/-- Size-relevant part of Rust `wgpu::SwapChainDescriptor` stored in
`RenderState` (`src/render.rs:45`). -/
structure SwapChainDescM where
  width : Nat
  height : Nat
deriving DecidableEq

/-- Rust `RenderState` (`src/render.rs:41`), reduced to the data the resize
and frame-submission protocol observes: the stored descriptor and the
descriptor the current swap chain was built from. -/
structure RenderStateM where
  swapchain_desc : SwapChainDescM
  swapchain : SwapChainDescM
deriving DecidableEq

/-- Rust `RenderState::resize` (`src/render.rs:172`): overwrite the stored
width/height and rebuild the swap chain from the updated descriptor. -/
def RenderStateM.resize (_r : RenderStateM) (new_size : Nat × Nat) : RenderStateM :=
  let desc : SwapChainDescM := ⟨new_size.1, new_size.2⟩
  { swapchain_desc := desc, swapchain := desc }

/-- Frame-submission arm of the event loop (`src/lib.rs:342`): the
`RedrawRequested` handler's `match render.render()`, taking the outcome of
`render()` (`none` for `Ok`) and the window's current reported inner size,
and returning the updated render state together with the control flow (which
the handler had previously set to `Poll`). -/
def redraw_requested (r : RenderStateM) (render_result : Option SwapChainErrorM)
    (window_inner_size : Nat × Nat) : RenderStateM × ControlFlowM :=
  match render_result with
  | none => (r, ControlFlowM.Poll)
  | some SwapChainErrorM.Lost => (r.resize window_inner_size, ControlFlowM.Poll)
  | some SwapChainErrorM.OutOfMemory => (r, ControlFlowM.Exit)
  | some _ => (r, ControlFlowM.Poll)

/-- Rust enum `RogueError` (`src/lib.rs:113`). -/
inductive RogueError where
  | OSError
  | RenderError
  | BadFont
deriving DecidableEq

/-- Result of the external `image` crate's decode step in `load_font_image`
(`src/lib.rs:188`): pixel dimensions and the RGBA pixels cast to `u32`. -/
structure FontDecoded where
  width : Nat
  height : Nat
  data : List Nat
deriving DecidableEq

/-- Rust struct `RogueFontData` (`src/lib.rs:137`). -/
structure RogueFontData where
  data : List Nat
  width : Nat
  height : Nat
deriving DecidableEq

/-- Rust `load_font_image` (`src/lib.rs:187`), over the outcome of the
external decoder (`none` models a decode failure): computes the per-glyph
cell size by integer division by 16 and rejects a zero cell dimension. -/
def load_font_image (decoded : Option FontDecoded) : Except RogueError RogueFontData :=
  match decoded with
  | none => Except.error RogueError.BadFont
  | some img =>
    let char_width := img.width / 16
    let char_height := img.height / 16
    if char_width = 0 ∨ char_height = 0 then Except.error RogueError.BadFont
    else Except.ok ⟨img.data, char_width, char_height⟩

/-- Shape of a grid: dimensions and the lengths of the three planes.  Every
drawing primitive is shown below to preserve this. -/
def SameShape (a b : Image) : Prop :=
  a.width = b.width ∧ a.height = b.height ∧
  a.fore_image.length = b.fore_image.length ∧
  a.back_image.length = b.back_image.length ∧
  a.text_image.length = b.text_image.length

/-- Length invariant of the data model (spec §3): each plane has exactly
`width * height` entries. -/
def lengthInvariant (img : Image) : Prop :=
  img.fore_image.length = img.width * img.height ∧
  img.back_image.length = img.width * img.height ∧
  img.text_image.length = img.width * img.height

/-- One call to a drawing primitive of `Image`, used to state invariant
preservation over arbitrary call sequences. -/
inductive DrawOp where
  | clearOp (ink paper : Nat)
  | charOp (p : Point) (ch : Char)
  | stringOp (p : Point) (text : List Nat) (ink paper : Nat)
  | rectOp (p : Point) (w h : Nat) (ch : Char)
  | rectFilledOp (p : Point) (w h : Nat) (ch : Char)

/-- Applies one drawing primitive. -/
def applyOp (img : Image) : DrawOp → Image
  | DrawOp.clearOp ink paper => clear img ink paper
  | DrawOp.charOp p ch => draw_char img p ch
  | DrawOp.stringOp p text ink paper => draw_string img p text ink paper
  | DrawOp.rectOp p w h ch => draw_rect img p w h ch
  | DrawOp.rectFilledOp p w h ch => draw_rect_filled img p w h ch

/-- Applies a sequence of drawing primitives in order. -/
def applyOps (img : Image) (ops : List DrawOp) : Image :=
  ops.foldl applyOp img

/-! Helper lemmas about the embedding. -/

theorem u32cast_lt (z : Int) : u32cast z < U32 := by
  unfold u32cast
  have h32 : (0 : Int) < (U32 : Int) := by norm_num [U32]
  have hlt := Int.emod_lt_of_pos z h32
  have hnn := Int.emod_nonneg z (by norm_num [U32] : (U32 : Int) ≠ 0)
  omega

theorem u32cast_coe (n : Nat) (h : n < U32) : u32cast (n : Int) = n := by
  unfold u32cast
  rw [Int.emod_eq_of_lt (by positivity) (by exact_mod_cast h)]
  simp

theorem usub_of_le {a b : Nat} (h : b ≤ a) : usub a b = a - b := if_pos h

theorem usub_zero (a : Nat) : usub a 0 = a := by simp [usub]

theorem setRange_length (l : List Nat) (i n v : Nat) :
    (setRange l i n v).length = l.length := by
  induction n with
  | zero => rfl
  | succ m ih => simp [setRange, ih]

theorem setVals_length (vs : List Nat) : ∀ (l : List Nat) (i : Nat),
    (setVals l i vs).length = l.length := by
  induction vs with
  | nil => intro l i; rfl
  | cons v vr ih => intro l i; simp [setVals, ih]

theorem setRange_getElem?_mem (l : List Nat) (i n v j : Nat)
    (h1 : i ≤ j) (h2 : j < i + n) (h3 : j < l.length) :
    (setRange l i n v)[j]? = some v := by
  induction n with
  | zero => omega
  | succ m ih =>
    show ((setRange l i m v).set (i + m) v)[j]? = some v
    by_cases hj : j = i + m
    · subst hj
      exact List.getElem?_set_self (by rw [setRange_length]; exact h3)
    · rw [List.getElem?_set_ne (by omega)]
      exact ih (by omega)

theorem setRange_getElem?_notmem (l : List Nat) (i n v j : Nat)
    (h : j < i ∨ i + n ≤ j) :
    (setRange l i n v)[j]? = l[j]? := by
  induction n with
  | zero => rfl
  | succ m ih =>
    show ((setRange l i m v).set (i + m) v)[j]? = l[j]?
    rw [List.getElem?_set_ne (by omega)]
    exact ih (by omega)

theorem setVals_getElem?_notmem (vs : List Nat) : ∀ (l : List Nat) (i j : Nat),
    (j < i ∨ i + vs.length ≤ j) → (setVals l i vs)[j]? = l[j]? := by
  induction vs with
  | nil => intro l i j _; rfl
  | cons v vr ih =>
    intro l i j h
    show (setVals (l.set i v) (i + 1) vr)[j]? = l[j]?
    simp only [List.length_cons] at h
    have hrec := ih (l.set i v) (i + 1) j (by omega)
    rw [hrec]
    exact List.getElem?_set_ne (by omega)

theorem setVals_getElem?_mem (vs : List Nat) : ∀ (l : List Nat) (i j : Nat),
    i ≤ j → j < i + vs.length → j < l.length →
    (setVals l i vs)[j]? = vs[j - i]? := by
  induction vs with
  | nil => intro l i j h1 h2 _; simp at h2; omega
  | cons v vr ih =>
    intro l i j h1 h2 h3
    show (setVals (l.set i v) (i + 1) vr)[j]? = (v :: vr)[j - i]?
    by_cases hj : j = i
    · rw [setVals_getElem?_notmem vr (l.set i v) (i + 1) j (Or.inl (by omega))]
      rw [hj, List.getElem?_set_self (hj ▸ h3)]
      simp
    · have hij : i + 1 ≤ j := by omega
      simp only [List.length_cons] at h2
      have hrec := ih (l.set i v) (i + 1) j hij (by omega) (by simp [h3])
      rw [hrec]
      have hsucc : j - i = (j - (i + 1)) + 1 := by omega
      rw [hsucc]
      simp

theorem setRange_write_eq (l : List Nat) (i n v j : Nat) (h1 : i ≤ j) (h2 : j < i + n) :
    (setRange l i n v)[j]? = (l[j]?).map (fun _ => v) := by
  by_cases hlen : j < l.length
  · rw [setRange_getElem?_mem l i n v j h1 h2 hlen, List.getElem?_eq_getElem hlen]
    rfl
  · rw [List.getElem?_eq_none (l := setRange l i n v) (by rw [setRange_length]; omega),
      List.getElem?_eq_none (by omega)]
    rfl

theorem fillRows_dims (ch : Char) (w : Nat) : ∀ (hh : Nat) (img : Image) (i : Nat),
    (fillRows img ch w i hh).width = img.width ∧
    (fillRows img ch w i hh).height = img.height ∧
    (fillRows img ch w i hh).fore_image.length = img.fore_image.length ∧
    (fillRows img ch w i hh).back_image.length = img.back_image.length ∧
    (fillRows img ch w i hh).text_image.length = img.text_image.length := by
  intro hh
  induction hh with
  | zero => intro img i; exact ⟨rfl, rfl, rfl, rfl, rfl⟩
  | succ m ih =>
    intro img i
    have H := ih
      { img with
        fore_image := setRange img.fore_image i w ch.ink
        back_image := setRange img.back_image i w ch.paper
        text_image := setRange img.text_image i w ch.ch } (i + img.width)
    exact ⟨H.1, H.2.1,
      H.2.2.1.trans (setRange_length _ _ _ _),
      H.2.2.2.1.trans (setRange_length _ _ _ _),
      H.2.2.2.2.trans (setRange_length _ _ _ _)⟩

theorem fillRows_untouched (ch : Char) (w : Nat) : ∀ (hh : Nat) (img : Image) (i j : Nat),
    j < i →
    (fillRows img ch w i hh).fore_image[j]? = img.fore_image[j]? ∧
    (fillRows img ch w i hh).back_image[j]? = img.back_image[j]? ∧
    (fillRows img ch w i hh).text_image[j]? = img.text_image[j]? := by
  intro hh
  induction hh with
  | zero => intro img i j _; exact ⟨rfl, rfl, rfl⟩
  | succ m ih =>
    intro img i j hj
    have H := ih
      { img with
        fore_image := setRange img.fore_image i w ch.ink
        back_image := setRange img.back_image i w ch.paper
        text_image := setRange img.text_image i w ch.ch } (i + img.width) j
      (by omega)
    exact ⟨H.1.trans (setRange_getElem?_notmem _ _ _ _ _ (Or.inl hj)),
      H.2.1.trans (setRange_getElem?_notmem _ _ _ _ _ (Or.inl hj)),
      H.2.2.trans (setRange_getElem?_notmem _ _ _ _ _ (Or.inl hj))⟩

theorem fillRows_covers (ch : Char) (w : Nat) : ∀ (hh : Nat) (img : Image) (i j : Nat),
    w = img.width → i ≤ j → j < i + hh * w →
    (fillRows img ch w i hh).fore_image[j]? = (img.fore_image[j]?).map (fun _ => ch.ink) ∧
    (fillRows img ch w i hh).back_image[j]? = (img.back_image[j]?).map (fun _ => ch.paper) ∧
    (fillRows img ch w i hh).text_image[j]? = (img.text_image[j]?).map (fun _ => ch.ch) := by
  intro hh
  induction hh with
  | zero => intro img i j _ h1 h2; omega
  | succ m ih =>
    intro img i j hw h1 h2
    have hstep : i + img.width = i + w := by omega
    by_cases hrow : j < i + w
    · have HU := fillRows_untouched ch w m
        { img with
          fore_image := setRange img.fore_image i w ch.ink
          back_image := setRange img.back_image i w ch.paper
          text_image := setRange img.text_image i w ch.ch } (i + img.width) j
        (by omega)
      exact ⟨HU.1.trans (setRange_write_eq _ _ _ _ _ h1 hrow),
        HU.2.1.trans (setRange_write_eq _ _ _ _ _ h1 hrow),
        HU.2.2.trans (setRange_write_eq _ _ _ _ _ h1 hrow)⟩
    · have HI := ih
        { img with
          fore_image := setRange img.fore_image i w ch.ink
          back_image := setRange img.back_image i w ch.paper
          text_image := setRange img.text_image i w ch.ch } (i + img.width) j
        hw (by omega) (by simp only [Nat.succ_mul] at h2; omega)
      refine ⟨HI.1.trans ?_, HI.2.1.trans ?_, HI.2.2.trans ?_⟩ <;>
        rw [setRange_getElem?_notmem _ _ _ _ _ (Or.inr (by omega))]

theorem index_lt_size {W H x y : Nat} (hx : x < W) (hy : y < H) : y * W + x < W * H := by
  calc y * W + x < y * W + W := by omega
  _ = (y + 1) * W := by ring
  _ ≤ H * W := Nat.mul_le_mul_right W (by omega)
  _ = W * H := Nat.mul_comm H W

theorem coords_to_index_some {img : Image} {x y : Nat} (hx : x < img.width)
    (hy : y < img.height) (hno : y * img.width + x < U32) :
    coords_to_index img x y = some (y * img.width + x) := by
  unfold coords_to_index
  rw [if_pos ⟨hx, hy⟩, Nat.mod_eq_of_lt hno]

theorem clip_zero (img : Image) :
    clip img ⟨0, 0⟩ img.width img.height = (0, 0, img.width, img.height) := by
  have h0 : u32cast 0 = 0 := by simp [u32cast]
  simp [clip, h0, usub_zero, min_self]

theorem clip_of_nat (img : Image) (x y w h : Nat) (hx : x < U32) (hy : y < U32) :
    clip img ⟨(x : Int), (y : Int)⟩ w h =
      (x, y, min w (usub img.width x), min h (usub img.height y)) := by
  unfold clip
  have hxneg : ¬ ((x : Int) < 0) := by omega
  have hyneg : ¬ ((y : Int) < 0) := by omega
  simp only [hxneg, hyneg, if_false, u32cast_coe x hx, u32cast_coe y hy]

theorem clip_shape_eq (img : Image) (p : Point) (w h : Nat) :
    ∃ a b c d, clip img p w h =
      (u32cast a, u32cast b,
       min c (usub img.width (u32cast a)), min d (usub img.height (u32cast b))) := by
  unfold clip
  exact ⟨_, _, _, _, rfl⟩

theorem sameShape_refl (a : Image) : SameShape a a := ⟨rfl, rfl, rfl, rfl, rfl⟩

theorem sameShape_trans {a b c : Image} (h1 : SameShape a b) (h2 : SameShape b c) :
    SameShape a c :=
  ⟨h1.1.trans h2.1, h1.2.1.trans h2.2.1, h1.2.2.1.trans h2.2.2.1,
   h1.2.2.2.1.trans h2.2.2.2.1, h1.2.2.2.2.trans h2.2.2.2.2⟩

theorem draw_rect_filled_shape (img : Image) (p : Point) (w h : Nat) (ch : Char) :
    SameShape (draw_rect_filled img p w h ch) img := by
  unfold draw_rect_filled
  dsimp only
  split
  · rename_i i heq
    have H := fillRows_dims ch (clip img p w h).2.2.1 (clip img p w h).2.2.2 img i
    exact ⟨H.1, H.2.1, H.2.2.1, H.2.2.2.1, H.2.2.2.2⟩
  · exact sameShape_refl img

theorem clear_shape (img : Image) (ink paper : Nat) :
    SameShape (clear img ink paper) img :=
  draw_rect_filled_shape img ⟨0, 0⟩ img.width img.height ⟨32, ink, paper⟩

theorem draw_char_shape (img : Image) (p : Point) (ch : Char) :
    SameShape (draw_char img p ch) img := by
  unfold draw_char
  split
  · split
    · exact ⟨rfl, rfl, by simp, by simp, by simp⟩
    · exact sameShape_refl img
  · exact sameShape_refl img

theorem draw_string_shape (img : Image) (p : Point) (text : List Nat) (ink paper : Nat) :
    SameShape (draw_string img p text ink paper) img := by
  unfold draw_string
  dsimp only
  split
  · exact ⟨rfl, rfl, setRange_length _ _ _ _, setRange_length _ _ _ _,
      setVals_length _ _ _⟩
  · exact sameShape_refl img

theorem draw_rect_shape (img : Image) (p : Point) (w h : Nat) (ch : Char) :
    SameShape (draw_rect img p w h ch) img := by
  unfold draw_rect
  split
  · exact draw_rect_filled_shape _ _ _ _ _
  · exact sameShape_trans (draw_rect_filled_shape _ _ _ _ _)
      (sameShape_trans (draw_rect_filled_shape _ _ _ _ _)
        (sameShape_trans (draw_rect_filled_shape _ _ _ _ _)
          (draw_rect_filled_shape _ _ _ _ _)))

theorem applyOp_shape (img : Image) (op : DrawOp) : SameShape (applyOp img op) img := by
  cases op with
  | clearOp ink paper => exact clear_shape img ink paper
  | charOp p ch => exact draw_char_shape img p ch
  | stringOp p text ink paper => exact draw_string_shape img p text ink paper
  | rectOp p w h ch => exact draw_rect_shape img p w h ch
  | rectFilledOp p w h ch => exact draw_rect_filled_shape img p w h ch

theorem lengthInvariant_of_shape {a b : Image} (hs : SameShape a b)
    (hi : lengthInvariant b) : lengthInvariant a := by
  obtain ⟨hw, hh, hf, hbk, ht⟩ := hs
  exact ⟨by rw [hf, hw, hh]; exact hi.1, by rw [hbk, hw, hh]; exact hi.2.1,
    by rw [ht, hw, hh]; exact hi.2.2⟩

theorem applyOps_inv : ∀ (ops : List DrawOp) (img : Image),
    lengthInvariant img → lengthInvariant (applyOps img ops) := by
  intro ops
  induction ops with
  | nil => intro img hi; exact hi
  | cons op rest ih =>
    intro img hi
    exact ih (applyOp img op) (lengthInvariant_of_shape (applyOp_shape img op) hi)

theorem getElem?_map_const {l : List Nat} {j v : Nat} (h : j < l.length) :
    (l[j]?).map (fun _ => v) = some v := by
  rw [List.getElem?_eq_getElem h]
  rfl

theorem setRange_if (l : List Nat) (i w v j : Nat) (hjl : i + w ≤ l.length) :
    (setRange l i w v)[j]? = if i ≤ j ∧ j < i + w then some v else l[j]? := by
  by_cases hmem : i ≤ j ∧ j < i + w
  · rw [if_pos hmem]
    exact setRange_getElem?_mem l i w v j hmem.1 hmem.2 (by omega)
  · rw [if_neg hmem]
    exact setRange_getElem?_notmem l i w v j (by omega)

theorem setVals_take_if (l : List Nat) (text : List Nat) (i w j : Nat)
    (hw : w ≤ text.length) (hjl : i + w ≤ l.length) :
    (setVals l i (text.take w))[j]? =
      if i ≤ j ∧ j < i + w then text[j - i]? else l[j]? := by
  have hlen : (text.take w).length = w := by rw [List.length_take]; omega
  by_cases hmem : i ≤ j ∧ j < i + w
  · rw [if_pos hmem]
    rw [setVals_getElem?_mem (text.take w) l i j hmem.1 (by omega) (by omega)]
    rw [List.getElem?_take, if_pos (by omega)]
  · rw [if_neg hmem]
    exact setVals_getElem?_notmem (text.take w) l i j (by omega)

theorem draw_string_eq_write (img : Image) (p : Point) (text : List Nat)
    (ink paper : Nat) (x yy w hh : Nat)
    (hc : clip img p (text.length % U32) 1 = (x, yy, w, hh))
    (hx : x < img.width) (hyy : yy < img.height)
    (hno : yy * img.width + x < U32) :
    draw_string img p text ink paper =
      { img with
        fore_image := setRange img.fore_image (yy * img.width + x) w ink
        back_image := setRange img.back_image (yy * img.width + x) w paper
        text_image := setVals img.text_image (yy * img.width + x) (text.take w) } := by
  unfold draw_string
  rw [hc]
  dsimp only
  rw [coords_to_index_some hx hyy hno]

theorem clip_neg_y (img : Image) (x : Nat) (yn : Int) (w h : Nat)
    (hx : x < U32) (hyn : yn < 0) :
    clip img ⟨(x : Int), yn⟩ w h =
      (x, 0, min w (usub img.width x),
       min ((h + u32cast yn) % U32) (usub img.height 0)) := by
  unfold clip
  have hxneg : ¬ ((x : Int) < 0) := by omega
  dsimp only
  rw [if_neg hxneg, if_pos hyn]
  dsimp only
  rw [u32cast_coe x hx, show u32cast (0 : Int) = 0 from by simp [u32cast]]

/-! Theorems for the frozen claims. -/

/-- C6: `clip` is idempotent — clipping the rectangle returned by `clip`
against the same grid returns it unchanged. -/
theorem clip_idempotent (img : Image) (p : Point) (w h : Nat) :
    clip img ⟨((clip img p w h).1 : Int), ((clip img p w h).2.1 : Int)⟩
      (clip img p w h).2.2.1 (clip img p w h).2.2.2 = clip img p w h := by
  obtain ⟨a, b, c, d, hc⟩ := clip_shape_eq img p w h
  rw [hc]
  rw [clip_of_nat img (u32cast a) (u32cast b) _ _ (u32cast_lt a) (u32cast_lt b)]
  rw [min_assoc, min_self, min_assoc, min_self]

/-- C7: in the loop driver's frame-submission step, a lost surface triggers an
immediate resize at the window's current size and the loop continues; an
out-of-memory error exits the loop without touching the render state; any
other error leaves both the render state and the control flow unchanged
(the error is only logged). -/
theorem redraw_requested_spec (r : RenderStateM) (ws : Nat × Nat) (e : SwapChainErrorM) :
    redraw_requested r (some SwapChainErrorM.Lost) ws = (r.resize ws, ControlFlowM.Poll) ∧
    redraw_requested r (some SwapChainErrorM.OutOfMemory) ws = (r, ControlFlowM.Exit) ∧
    (e ≠ SwapChainErrorM.Lost → e ≠ SwapChainErrorM.OutOfMemory →
      redraw_requested r (some e) ws = (r, ControlFlowM.Poll)) := by
  refine ⟨rfl, rfl, ?_⟩
  intro h1 h2
  cases e with
  | Lost => exact absurd rfl h1
  | OutOfMemory => exact absurd rfl h2
  | Timeout => rfl
  | Outdated => rfl

/-- Witness for C7 at a concrete render state, window size and error. -/
theorem redraw_requested_spec_witness :
    redraw_requested ⟨⟨800, 600⟩, ⟨800, 600⟩⟩ (some SwapChainErrorM.Outdated) (640, 480) =
      (⟨⟨800, 600⟩, ⟨800, 600⟩⟩, ControlFlowM.Poll) :=
  (redraw_requested_spec ⟨⟨800, 600⟩, ⟨800, 600⟩⟩ (640, 480) SwapChainErrorM.Outdated).2.2
    (by decide) (by decide)

/-- C8: `load_font_image` fails with `BadFont` exactly when decoding fails or
the per-glyph cell size (image dimensions divided by 16) is zero in either
dimension, and on success the font data carries exactly those cell sizes. -/
theorem load_font_image_spec (decoded : Option FontDecoded) :
    (load_font_image decoded = Except.error RogueError.BadFont ↔
      decoded = none ∨
        ∃ f, decoded = some f ∧ (f.width / 16 = 0 ∨ f.height / 16 = 0)) ∧
    (∀ f fd, decoded = some f → load_font_image decoded = Except.ok fd →
      fd.width = f.width / 16 ∧ fd.height = f.height / 16 ∧ fd.data = f.data) := by
  constructor
  · cases decoded with
    | none => simp [load_font_image]
    | some f =>
      simp only [load_font_image]
      by_cases hz : f.width / 16 = 0 ∨ f.height / 16 = 0
      · simp [hz]
      · simp [hz]
  · intro f fd hdec hok
    subst hdec
    simp only [load_font_image] at hok
    by_cases hz : f.width / 16 = 0 ∨ f.height / 16 = 0
    · rw [if_pos hz] at hok; cases hok
    · rw [if_neg hz] at hok
      cases hok
      exact ⟨rfl, rfl, rfl⟩

/-- Witness for C8 at a concrete decoded image (32 × 48 pixels, so the
per-glyph cell is 2 × 3). -/
theorem load_font_image_spec_witness :
    load_font_image (some ⟨32, 48, [1, 2]⟩) = Except.ok ⟨[1, 2], 2, 3⟩ ∧
    (⟨[1, 2], 2, 3⟩ : RogueFontData).width = 32 / 16 :=
  ⟨rfl,
   ((load_font_image_spec (some ⟨32, 48, [1, 2]⟩)).2 ⟨32, 48, [1, 2]⟩ ⟨[1, 2], 2, 3⟩
     rfl rfl).1⟩

/-- C9: every drawing primitive preserves the grid's `width` and `height`
fields and the lengths of the three planes; consequently the length
invariant, once it holds, holds after any sequence of drawing-primitive
calls. -/
theorem draw_primitives_preserve_shape (img : Image) :
    (∀ ink paper, SameShape (clear img ink paper) img) ∧
    (∀ p ch, SameShape (draw_char img p ch) img) ∧
    (∀ p text ink paper, SameShape (draw_string img p text ink paper) img) ∧
    (∀ p w h ch, SameShape (draw_rect img p w h ch) img) ∧
    (∀ p w h ch, SameShape (draw_rect_filled img p w h ch) img) ∧
    (∀ ops, lengthInvariant img → lengthInvariant (applyOps img ops)) :=
  ⟨fun ink paper => clear_shape img ink paper,
   fun p ch => draw_char_shape img p ch,
   fun p text ink paper => draw_string_shape img p text ink paper,
   fun p w h ch => draw_rect_shape img p w h ch,
   fun p w h ch => draw_rect_filled_shape img p w h ch,
   fun ops hi => applyOps_inv ops img hi⟩

/-- Witness for C9: the invariant-preservation component applied to a
concrete 2 × 1 grid and a concrete call sequence. -/
theorem draw_primitives_preserve_shape_witness :
    lengthInvariant
      (applyOps ⟨2, 1, [0, 0], [0, 0], [0, 0]⟩
        [DrawOp.clearOp 1 2, DrawOp.stringOp ⟨0, 0⟩ [65] 3 4]) :=
  (draw_primitives_preserve_shape ⟨2, 1, [0, 0], [0, 0], [0, 0]⟩).2.2.2.2.2
    [DrawOp.clearOp 1 2, DrawOp.stringOp ⟨0, 0⟩ [65] 3 4] ⟨rfl, rfl, rfl⟩

/-- C1 (counterexample): on a grid of width and height `2^31`, the in-range
coordinates `(0, 0)` and `(0, 2)` are distinct yet map to the same index
`some 0`, because `y * width + x` wraps modulo `2^32`: this refutes both the
claimed return value `Some(y*width+x)` (which would be `2^32` for `(0, 2)`)
and the claimed injectivity on distinct in-range pairs. -/
theorem coords_to_index_claim_cex :
    coords_to_index ⟨2147483648, 2147483648, [], [], []⟩ 0 0 = some 0 ∧
    coords_to_index ⟨2147483648, 2147483648, [], [], []⟩ 0 2 = some 0 ∧
    ((0 : Nat), (0 : Nat)) ≠ ((0 : Nat), (2 : Nat)) ∧
    0 < (2147483648 : Nat) ∧ 2 < (2147483648 : Nat) ∧
    2 * 2147483648 + 0 ≠ (0 : Nat) := by
  refine ⟨by decide, by decide, by decide, by norm_num, by norm_num, by norm_num⟩

/-- C1 (amended): whenever `width * height ≤ 2^32` — in particular for every
grid whose planes can satisfy the length invariant with fewer than `2^32`
cells — `coords_to_index` returns `none` exactly on out-of-range coordinates,
returns `some (y*width+x)` on in-range ones, and is injective on in-range
pairs.  The embedding is total, so the function never panics under the
release-mode (wrapping) semantics modelled here. -/
theorem coords_to_index_spec (img : Image) (hsz : img.width * img.height ≤ U32) :
    (∀ x y, coords_to_index img x y = none ↔ img.width ≤ x ∨ img.height ≤ y) ∧
    (∀ x y, x < img.width → y < img.height →
      coords_to_index img x y = some (y * img.width + x)) ∧
    (∀ x₁ y₁ x₂ y₂, x₁ < img.width → y₁ < img.height →
      x₂ < img.width → y₂ < img.height →
      coords_to_index img x₁ y₁ = coords_to_index img x₂ y₂ →
      x₁ = x₂ ∧ y₁ = y₂) := by
  have hval : ∀ x y, x < img.width → y < img.height →
      coords_to_index img x y = some (y * img.width + x) := by
    intro x y hx hy
    exact coords_to_index_some hx hy (lt_of_lt_of_le (index_lt_size hx hy) hsz)
  refine ⟨?_, hval, ?_⟩
  · intro x y
    unfold coords_to_index
    by_cases hin : x < img.width ∧ y < img.height
    · rw [if_pos hin]
      constructor
      · intro hno; exact absurd hno (Option.some_ne_none _)
      · intro hge; exfalso; rcases hge with hg | hg <;> omega
    · rw [if_neg hin]
      constructor
      · intro _; by_cases hx : x < img.width
        · right; by_cases hy : y < img.height
          · exact absurd ⟨hx, hy⟩ hin
          · omega
        · left; omega
      · intro _; rfl
  · intro x1 y1 x2 y2 h1 h2 h3 h4 heq
    rw [hval x1 y1 h1 h2, hval x2 y2 h3 h4] at heq
    have key : y1 * img.width + x1 = y2 * img.width + x2 := Option.some.inj heq
    have e : img.width * y1 + x1 = img.width * y2 + x2 := by
      rw [Nat.mul_comm img.width y1, Nat.mul_comm img.width y2]; exact key
    have hW : 0 < img.width := by omega
    have hx12 : x1 = x2 := by
      calc x1 = x1 % img.width := (Nat.mod_eq_of_lt h1).symm
      _ = (img.width * y1 + x1) % img.width := (Nat.mul_add_mod _ _ _).symm
      _ = (img.width * y2 + x2) % img.width := by rw [e]
      _ = x2 % img.width := Nat.mul_add_mod _ _ _
      _ = x2 := Nat.mod_eq_of_lt h3
    have hy12 : y1 = y2 := by
      calc y1 = y1 + x1 / img.width := by rw [Nat.div_eq_of_lt h1]; omega
      _ = (img.width * y1 + x1) / img.width := (Nat.mul_add_div hW _ _).symm
      _ = (img.width * y2 + x2) / img.width := by rw [e]
      _ = y2 + x2 / img.width := Nat.mul_add_div hW _ _
      _ = y2 := by rw [Nat.div_eq_of_lt h3]; omega
    exact ⟨hx12, hy12⟩

/-- Witness for C1 on a concrete 3 × 2 grid. -/
theorem coords_to_index_spec_witness :
    3 * 2 ≤ U32 ∧ coords_to_index ⟨3, 2, [], [], []⟩ 1 1 = some (1 * 3 + 1) :=
  ⟨by norm_num [U32],
   (coords_to_index_spec ⟨3, 2, [], [], []⟩ (by norm_num [U32])).2.1 1 1
     (by norm_num) (by norm_num)⟩

/-- C2 (code evaluation at the failing input): the rectangle anchored at
`(-5, 0)` with extent `3 × 1` lies entirely off a 4 × 1 grid (its cells have
`x ∈ {-5, -4, -3}`), yet `clip` returns `(0, 0, 4, 1)` — both extents
nonzero — because `width += x as u32` wraps to a huge value (`2^32 - 2`) when
the requested width `3` is smaller than `|x| = 5`, after which
`min(width, self.width - x)` selects the full grid width. -/
theorem clip_fully_offgrid_eval :
    clip ⟨4, 1, [], [], []⟩ ⟨-5, 0⟩ 3 1 = (0, 0, 4, 1) ∧
    (4 : Nat) ≠ 0 ∧ (1 : Nat) ≠ 0 := by
  refine ⟨by decide, by decide, by decide⟩

/-- C3 (code evaluation at the failing input): `draw_rect_filled` with the
same entirely-off-grid rectangle as in the C2 evaluation overwrites the whole
first row of the grid — all three planes change — instead of leaving the
planes untouched. -/
theorem draw_rect_filled_fully_offgrid_eval :
    (draw_rect_filled ⟨4, 1, [0, 0, 0, 0], [0, 0, 0, 0], [0, 0, 0, 0]⟩
        ⟨-5, 0⟩ 3 1 ⟨7, 5, 6⟩) =
      ⟨4, 1, [5, 5, 5, 5], [6, 6, 6, 6], [7, 7, 7, 7]⟩ ∧
    ([7, 7, 7, 7] : List Nat) ≠ [0, 0, 0, 0] := by
  refine ⟨by decide, by decide⟩

/-- C5: `clear(ink, paper)` gives every cell the space glyph (byte 32) with
the given ink and paper, and is definitionally the same state as
`draw_rect_filled(Point(0,0), width, height, Char(space, ink, paper))`. -/
theorem clear_spec (img : Image) (ink paper : Nat) (hinv : lengthInvariant img) :
    (∀ j, j < img.width * img.height →
      (clear img ink paper).fore_image[j]? = some ink ∧
      (clear img ink paper).back_image[j]? = some paper ∧
      (clear img ink paper).text_image[j]? = some 32) ∧
    clear img ink paper =
      draw_rect_filled img ⟨0, 0⟩ img.width img.height ⟨32, ink, paper⟩ := by
  refine ⟨?_, rfl⟩
  intro j hj
  have hW : 0 < img.width := by
    rcases Nat.eq_zero_or_pos img.width with h | h
    · rw [h] at hj; simp at hj
    · exact h
  have hH : 0 < img.height := by
    rcases Nat.eq_zero_or_pos img.height with h | h
    · rw [h] at hj; simp at hj
    · exact h
  have hco : coords_to_index img 0 0 = some 0 := by
    unfold coords_to_index
    rw [if_pos ⟨hW, hH⟩]
    norm_num
  have hres : clear img ink paper =
      fillRows img ⟨32, ink, paper⟩ img.width 0 img.height := by
    unfold clear draw_rect_filled
    rw [clip_zero]
    dsimp only
    rw [hco]
  rw [hres]
  have HC := fillRows_covers ⟨32, ink, paper⟩ img.width img.height img 0 j rfl
    (Nat.zero_le j) (by rw [Nat.zero_add, Nat.mul_comm img.height img.width]; exact hj)
  exact ⟨HC.1.trans (getElem?_map_const (by rw [hinv.1]; exact hj)),
    HC.2.1.trans (getElem?_map_const (by rw [hinv.2.1]; exact hj)),
    HC.2.2.trans (getElem?_map_const (by rw [hinv.2.2]; exact hj))⟩

/-- Witness for C5 on a concrete 2 × 1 grid. -/
theorem clear_spec_witness :
    lengthInvariant (⟨2, 1, [0, 0], [0, 0], [0, 0]⟩ : Image) ∧
    (clear ⟨2, 1, [0, 0], [0, 0], [0, 0]⟩ 3 4).text_image[1]? = some 32 :=
  ⟨⟨rfl, rfl, rfl⟩,
   ((clear_spec ⟨2, 1, [0, 0], [0, 0], [0, 0]⟩ 3 4 ⟨rfl, rfl, rfl⟩).1 1
     (by norm_num)).2.2⟩

/-- C4 (counterexample): at start point `(0, -1)` on a 2 × 1 grid the claim,
which quantifies over every start point, says the written cells are the
cells of row `-1` starting at column 0 and that every other cell of all
three planes is untouched; the code instead writes grid cell `(0, 0)` (the
glyph plane changes from `[0, 0]` to `[65, 0]`), a cell that does not lie in
row `-1`, because `draw_string` ignores the zero clipped height. -/
theorem draw_string_claim_cex :
    (draw_string ⟨2, 1, [0, 0], [0, 0], [0, 0]⟩ ⟨0, -1⟩ [65] 1 2).text_image = [65, 0] ∧
    ([65, 0] : List Nat) ≠ [0, 0] := by
  refine ⟨by decide, by decide⟩

/-- C4 (amended): for every start point with `0 ≤ x < width` and
`0 ≤ y < height` (on a grid satisfying the length invariant, with
`width * height ≤ 2^32` and text shorter than `2^32` bytes), `draw_string`
writes exactly `min(text length, width - x)` cells — the cells of row `y`
starting at column `x`, receiving the leading text bytes with the given ink
and paper — and leaves every other cell of all three planes untouched, never
wrapping to another row. -/
theorem draw_string_spec (img : Image) (text : List Nat) (ink paper x y : Nat)
    (hx : x < img.width) (hy : y < img.height) (hinv : lengthInvariant img)
    (hsz : img.width * img.height ≤ U32) (htl : text.length < U32) :
    (draw_string img ⟨(x : Int), (y : Int)⟩ text ink paper).width = img.width ∧
    (draw_string img ⟨(x : Int), (y : Int)⟩ text ink paper).height = img.height ∧
    (draw_string img ⟨(x : Int), (y : Int)⟩ text ink paper).fore_image.length =
      img.fore_image.length ∧
    (draw_string img ⟨(x : Int), (y : Int)⟩ text ink paper).back_image.length =
      img.back_image.length ∧
    (draw_string img ⟨(x : Int), (y : Int)⟩ text ink paper).text_image.length =
      img.text_image.length ∧
    (∀ j, (draw_string img ⟨(x : Int), (y : Int)⟩ text ink paper).fore_image[j]? =
      if y * img.width + x ≤ j ∧
          j < y * img.width + x + min text.length (img.width - x)
      then some ink else img.fore_image[j]?) ∧
    (∀ j, (draw_string img ⟨(x : Int), (y : Int)⟩ text ink paper).back_image[j]? =
      if y * img.width + x ≤ j ∧
          j < y * img.width + x + min text.length (img.width - x)
      then some paper else img.back_image[j]?) ∧
    (∀ j, (draw_string img ⟨(x : Int), (y : Int)⟩ text ink paper).text_image[j]? =
      if y * img.width + x ≤ j ∧
          j < y * img.width + x + min text.length (img.width - x)
      then text[j - (y * img.width + x)]? else img.text_image[j]?) := by
  have hWle : img.width ≤ U32 := by
    have h1 : img.width * 1 ≤ img.width * img.height :=
      Nat.mul_le_mul_left img.width (by omega)
    simp only [Nat.mul_one] at h1
    omega
  have hHle : img.height ≤ U32 := by
    have h1 : 1 * img.height ≤ img.width * img.height :=
      Nat.mul_le_mul_right img.height (by omega)
    simp only [Nat.one_mul] at h1
    omega
  have hmod : text.length % U32 = text.length := Nat.mod_eq_of_lt htl
  have hclip : clip img ⟨(x : Int), (y : Int)⟩ (text.length % U32) 1 =
      (x, y, min text.length (img.width - x), min 1 (usub img.height y)) := by
    rw [hmod, clip_of_nat img x y _ _ (by omega) (by omega),
      usub_of_le (Nat.le_of_lt hx)]
  obtain ⟨hif, hib, hit⟩ := hinv
  have hno : y * img.width + x < U32 :=
    lt_of_lt_of_le (index_lt_size hx hy) hsz
  have heq := draw_string_eq_write img ⟨(x : Int), (y : Int)⟩ text ink paper
    x y (min text.length (img.width - x)) (min 1 (usub img.height y)) hclip hx hy hno
  have hwle : min text.length (img.width - x) ≤ text.length := Nat.min_le_left _ _
  have hbound : y * img.width + x + min text.length (img.width - x) ≤
      img.width * img.height := by
    have h1 : min text.length (img.width - x) ≤ img.width - x := Nat.min_le_right _ _
    have h2 : (y + 1) * img.width ≤ img.height * img.width :=
      Nat.mul_le_mul_right img.width (by omega)
    have h3 : (y + 1) * img.width = y * img.width + img.width := Nat.succ_mul y img.width
    have h4 : img.height * img.width = img.width * img.height :=
      Nat.mul_comm img.height img.width
    omega
  refine ⟨by rw [heq], by rw [heq],
    by rw [heq]; exact setRange_length _ _ _ _,
    by rw [heq]; exact setRange_length _ _ _ _,
    by rw [heq]; exact setVals_length _ _ _, ?_, ?_, ?_⟩
  · intro j
    rw [heq]
    exact setRange_if img.fore_image (y * img.width + x)
      (min text.length (img.width - x)) ink j (by omega)
  · intro j
    rw [heq]
    exact setRange_if img.back_image (y * img.width + x)
      (min text.length (img.width - x)) paper j (by omega)
  · intro j
    rw [heq]
    exact setVals_take_if img.text_image text (y * img.width + x)
      (min text.length (img.width - x)) j hwle (by omega)

/-- Witness for C4: drawing the text `"HI"` (bytes 72, 73) at `(1, 1)` on a
3 × 2 grid puts byte 72 into cell index 4. -/
theorem draw_string_spec_witness :
    (draw_string ⟨3, 2, [0, 0, 0, 0, 0, 0], [0, 0, 0, 0, 0, 0], [0, 0, 0, 0, 0, 0]⟩
        ⟨((1 : Nat) : Int), ((1 : Nat) : Int)⟩ [72, 73] 5 6).text_image[4]? = some 72 := by
  have h := (draw_string_spec
    ⟨3, 2, [0, 0, 0, 0, 0, 0], [0, 0, 0, 0, 0, 0], [0, 0, 0, 0, 0, 0]⟩
    [72, 73] 5 6 1 1 (by norm_num) (by norm_num) ⟨rfl, rfl, rfl⟩
    (by norm_num [U32]) (by norm_num [U32])).2.2.2.2.2.2.2 4
  simpa using h

/-- C10 (counterexample): on a width-1, height-0 grid (which satisfies the
length invariant with empty planes), a non-empty text at start point
`(0, -1)` — so `y < 0` and `0 ≤ x < width` — affects zero cells: the image is
returned unchanged, while the claim says `min(text length, width - x) = 1`
cells of the text are written into row 0. -/
theorem draw_string_negative_y_cex :
    draw_string ⟨1, 0, [], [], []⟩ ⟨0, -1⟩ [65] 1 2 = ⟨1, 0, [], [], []⟩ ∧
    lengthInvariant (⟨1, 0, [], [], []⟩ : Image) ∧
    (0 : Nat) < 1 ∧ ([65] : List Nat) ≠ [] ∧ (-1 : Int) < 0 ∧
    0 < min ([65] : List Nat).length (1 - 0) := by
  exact ⟨by decide, ⟨rfl, rfl, rfl⟩, by norm_num, by decide, by norm_num, by decide⟩

/-- C10 (amended): for every grid satisfying the length invariant with
`0 < height` (and `width * height ≤ 2^32`, text shorter than `2^32` bytes),
every non-empty text, and every start point with `y < 0` and
`0 ≤ x < width`, `draw_string` affects a positive number of cells: it writes
`min(text length, width - x)` leading text bytes into row 0 starting at
column `x` (the zero clipped height returned by `clip` is discarded), and
leaves every other cell of all three planes untouched. -/
theorem draw_string_negative_y_spec (img : Image) (text : List Nat)
    (ink paper x : Nat) (yn : Int) (hyn : yn < 0) (hx : x < img.width)
    (hH : 0 < img.height) (htne : text ≠ []) (hinv : lengthInvariant img)
    (hsz : img.width * img.height ≤ U32) (htl : text.length < U32) :
    0 < min text.length (img.width - x) ∧
    (∀ j, (draw_string img ⟨(x : Int), yn⟩ text ink paper).fore_image[j]? =
      if x ≤ j ∧ j < x + min text.length (img.width - x)
      then some ink else img.fore_image[j]?) ∧
    (∀ j, (draw_string img ⟨(x : Int), yn⟩ text ink paper).back_image[j]? =
      if x ≤ j ∧ j < x + min text.length (img.width - x)
      then some paper else img.back_image[j]?) ∧
    (∀ j, (draw_string img ⟨(x : Int), yn⟩ text ink paper).text_image[j]? =
      if x ≤ j ∧ j < x + min text.length (img.width - x)
      then text[j - x]? else img.text_image[j]?) := by
  have hWle : img.width ≤ U32 := by
    have h1 : img.width * 1 ≤ img.width * img.height :=
      Nat.mul_le_mul_left img.width (by omega)
    simp only [Nat.mul_one] at h1
    omega
  have hmod : text.length % U32 = text.length := Nat.mod_eq_of_lt htl
  have hclip : clip img ⟨(x : Int), yn⟩ (text.length % U32) 1 =
      (x, 0, min text.length (img.width - x),
       min ((1 + u32cast yn) % U32) (usub img.height 0)) := by
    rw [hmod, clip_neg_y img x yn _ _ (by omega) hyn,
      usub_of_le (Nat.le_of_lt hx)]
  obtain ⟨hif, hib, hit⟩ := hinv
  have hno : 0 * img.width + x < U32 := by
    simp only [Nat.zero_mul, Nat.zero_add]
    omega
  have heq := draw_string_eq_write img ⟨(x : Int), yn⟩ text ink paper
    x 0 (min text.length (img.width - x))
    (min ((1 + u32cast yn) % U32) (usub img.height 0)) hclip hx hH hno
  rw [show (0 : Nat) * img.width + x = x from by omega] at heq
  have hwle : min text.length (img.width - x) ≤ text.length := Nat.min_le_left _ _
  have hbound : x + min text.length (img.width - x) ≤ img.width * img.height := by
    have h1 : min text.length (img.width - x) ≤ img.width - x := Nat.min_le_right _ _
    have h2 : 1 * img.width ≤ img.height * img.width :=
      Nat.mul_le_mul_right img.width (by omega)
    have h3 : img.height * img.width = img.width * img.height :=
      Nat.mul_comm img.height img.width
    omega
  have htpos : 0 < text.length := List.length_pos.mpr htne
  refine ⟨by omega, ?_, ?_, ?_⟩
  · intro j
    rw [heq]
    exact setRange_if img.fore_image x (min text.length (img.width - x)) ink j
      (by omega)
  · intro j
    rw [heq]
    exact setRange_if img.back_image x (min text.length (img.width - x)) paper j
      (by omega)
  · intro j
    rw [heq]
    exact setVals_take_if img.text_image text x (min text.length (img.width - x)) j
      hwle (by omega)

/-- Witness for C10: drawing bytes `[65, 66, 67]` at `(1, -2)` on a 3 × 2
grid writes bytes 65 and 66 into row 0 at columns 1 and 2; cell index 2
receives byte 66. -/
theorem draw_string_negative_y_spec_witness :
    (draw_string ⟨3, 2, [0, 0, 0, 0, 0, 0], [0, 0, 0, 0, 0, 0], [0, 0, 0, 0, 0, 0]⟩
        ⟨((1 : Nat) : Int), -2⟩ [65, 66, 67] 1 2).text_image[2]? = some 66 := by
  have h := (draw_string_negative_y_spec
    ⟨3, 2, [0, 0, 0, 0, 0, 0], [0, 0, 0, 0, 0, 0], [0, 0, 0, 0, 0, 0]⟩
    [65, 66, 67] 1 2 1 (-2) (by norm_num) (by norm_num) (by norm_num)
    (by decide) ⟨rfl, rfl, rfl⟩ (by norm_num [U32]) (by norm_num [U32])).2.2.2 2
  simpa using h

end Mage
